import Mathlib

set_option maxHeartbeats 1000000

/-!
Shallow embedding of the cherrypick-interactive CLI (src/cli.js).

Pure functions of the source (filterMissing, classifySingleCommit,
collapseBumps, parseVersion, incrementVersion, buildChangelogBody, the
selection re-ordering of main, and the counting skeleton of
cherryPickSequential) are translated into executable Lean definitions.
JS strings are modelled as List Char (the String wrappers keep the
source names); the three classifier regexes are modelled as explicit
scanners over the character list with the same matching semantics.
-/

namespace CherrypickInteractive

/-- Bump levels returned by the classifier; the source uses the strings
"major", "minor", "patch" and null (modelled as Option BumpLevel). -/
inductive BumpLevel where
  | major
  | minor
  | patch
deriving DecidableEq, Repr

/-- Characters matched by the JS regex class \s (whitespace), used by the
classifier regexes and by String.prototype.trim. -/
def isSpaceChar (c : Char) : Bool :=
  c.toNat = 9 || c.toNat = 10 || c.toNat = 11 || c.toNat = 12 || c.toNat = 13 ||
  c.toNat = 32 || c.toNat = 160 || c.toNat = 0x1680 ||
  (0x2000 ≤ c.toNat && c.toNat ≤ 0x200a) ||
  c.toNat = 0x2028 || c.toNat = 0x2029 || c.toNat = 0x202f || c.toNat = 0x205f ||
  c.toNat = 0x3000 || c.toNat = 0xfeff

/-- Characters matched by the JS regex class \w, i.e. [A-Za-z0-9_];
the word-boundary assertion of the breaking-change regex is defined
from this class. -/
def isWordChar (c : Char) : Bool :=
  (65 ≤ c.toNat && c.toNat ≤ 90) || (97 ≤ c.toNat && c.toNat ≤ 122) ||
  (48 ≤ c.toNat && c.toNat ≤ 57) || c.toNat = 95

/-- Case-insensitive match of input char c against a lowercase-ASCII
pattern char p, as performed by the /i flag of a non-unicode JS regex
(only ASCII letters fold across case there). -/
def charMatchCI (p c : Char) : Bool :=
  c == p || (65 ≤ c.toNat && c.toNat ≤ 90 && c.toNat + 32 == p.toNat)

/-- Case-insensitive prefix test of a lowercase-ASCII pattern against the
input character list. -/
def startsWithCI : List Char → List Char → Bool
  | [], _ => true
  | _ :: _, [] => false
  | p :: ps, c :: cs => charMatchCI p c && startsWithCI ps cs

/-- normalizeMessage of src/cli.js: replace every CRLF pair by LF
(msg.replace of the global regex matching a CR immediately followed by
LF), scanning left to right without overlap. -/
def normalizeMessage : List Char → List Char
  | [] => []
  | [c] => [c]
  | c :: d :: rest =>
    if c = '\r' ∧ d = '\n' then '\n' :: normalizeMessage rest
    else c :: normalizeMessage (d :: rest)

/-- Does BREAKING[- _]CHANGE match (case-insensitively) at the start of s?
The optional scope and colon suffix of the source regex always match the
empty string, so they cannot affect the boolean test and are omitted. -/
def breakingAt (s : List Char) : Bool :=
  startsWithCI "breaking".data s &&
    (match s.drop 8 with
     | sep :: r => (sep == '-' || sep == ' ' || sep == '_') && startsWithCI "change".data r
     | [] => false)

/-- Scan every position of the body for a breaking-change match whose
start sits at a word boundary; prevWord records whether the previous
character was a word character (the regex requires it is not). -/
def breakingScan : Bool → List Char → Bool
  | _, [] => false
  | prevWord, c :: cs =>
    (if prevWord then false else breakingAt (c :: cs)) || breakingScan (isWordChar c) cs

/-- Test of the major regex of classifySingleCommit: a word-boundary
anchored BREAKING[- _]CHANGE anywhere in the body, case-insensitive. -/
def breakingTest (s : List Char) : Bool := breakingScan false s

/-- Does one of the conventional-commit patterns match here, at a position
that is the start of the string or just after a newline? The regexes
allow leading whitespace, then an optional star bullet with trailing
whitespace, then the keyword; the optional scope and colon suffix always
match the empty string and are omitted from the boolean test. -/
def leadAt (pats : List (List Char)) (s : List Char) : Bool :=
  let s1 := s.dropWhile isSpaceChar
  let s2 := if s1.head? == some '*' then s1.tail.dropWhile isSpaceChar else s1
  pats.any (fun p => startsWithCI p s2)

/-- Scan the body for positions just after a newline where leadAt holds. -/
def leadScan (pats : List (List Char)) : List Char → Bool
  | [] => false
  | c :: cs => (if c = '\n' then leadAt pats cs else false) || leadScan pats cs

/-- Test of the minor and patch regexes of classifySingleCommit: the
anchor group matches either the start of the string or a newline. -/
def hasLineLead (pats : List (List Char)) (s : List Char) : Bool :=
  leadAt pats s || leadScan pats s

/-- classifySingleCommit of src/cli.js on a character list: normalize the
body, then test the major, minor and patch regexes in priority order,
first match winning. -/
def classifyCore (msg : List Char) : Option BumpLevel :=
  let body := normalizeMessage msg
  if breakingTest body then some .major
  else if hasLineLead ["feat".data] body then some .minor
  else if hasLineLead ["fix".data, "perf".data] body then some .patch
  else none

/-- classifySingleCommit of src/cli.js: returns major, minor, patch or
null for a single commit message. -/
def classifySingleCommit (msg : String) : Option BumpLevel :=
  classifyCore msg.data

/-- Commit of the data model: a hash and a subject, as produced by
getDevCommits. -/
structure Commit where
  hash : String
  subject : String
deriving DecidableEq, Repr

/-- filterMissing of src/cli.js: keep the dev commits whose subject is not
a member of the main-subjects set; the JS Set of subjects is modelled as
a list with membership testing. -/
def filterMissing (devCommits : List Commit) (mainSubjects : List String) : List Commit :=
  devCommits.filter (fun c => !(mainSubjects.contains c.subject))

/-- Re-ordering of main (line 542 of src/cli.js): selected hashes are
sorted with the comparator subtracting map positions, i.e. by descending
index in the newest-first missing list; Array.prototype.sort is stable,
modelled as a stable insertion sort. idx stands for indexByHash.get on
hashes drawn from the missing list. Insertion step: x is placed before
the first element whose index is at most its own. -/
def insertDescIdx (idx : String → Nat) (x : String) : List String → List String
  | [] => [x]
  | y :: l => if idx y ≤ idx x then x :: y :: l else y :: insertDescIdx idx x l

/-- Stable sort of the selection by descending original index (the
bottomToTop computation of main, oldest to newest). -/
def sortDescIdx (idx : String → Nat) : List String → List String
  | [] => []
  | x :: l => insertDescIdx idx x (sortDescIdx idx l)

/-- indexByHash of main (line 529 of src/cli.js): the position of a hash
in the newest-first missing list (zero is newest). Git hashes are
distinct, so the first-position lookup agrees with the JS Map built by
insertion. -/
def indexByHash (missing : List Commit) (h : String) : Nat :=
  (missing.map Commit.hash).indexOf h

/-- bottomToTop of main (line 542 of src/cli.js): the selection sorted
oldest to newest. -/
def bottomToTop (missing : List Commit) (selected : List String) : List String :=
  sortDescIdx (indexByHash missing) selected

/-- collapseBumps of src/cli.js: collapse many per-commit levels to the
single highest one, null when none. -/
def collapseBumps (levels : List BumpLevel) : Option BumpLevel :=
  if levels.contains .major then some .major
  else if levels.contains .minor then some .minor
  else if levels.contains .patch then some .patch
  else none

/-- Level collection loop of computeSemanticBumpForCommits: each commit
message is classified in order, non-null levels are pushed, and the loop
breaks right after pushing a major. The git lookup of full messages by
hash is modelled by passing the messages themselves. -/
def collectLevels : List String → List BumpLevel
  | [] => []
  | m :: rest =>
    match classifySingleCommit m with
    | none => collectLevels rest
    | some l => if l = .major then [.major] else l :: collectLevels rest

/-- computeSemanticBumpForCommits of src/cli.js: null on an empty list,
otherwise the collapse of the collected levels (with the early exit on
major inside collectLevels). -/
def computeSemanticBumpForCommits (msgs : List String) : Option BumpLevel :=
  match msgs with
  | [] => none
  | _ :: _ => collapseBumps (collectLevels msgs)

/-- Version record produced by parseVersion. -/
structure Version where
  major : Nat
  minor : Nat
  patch : Nat
deriving DecidableEq, Repr

/-- Strict lexicographic order on versions, the total order of the
semantic-versioning data model. -/
def versionLt (x y : Version) : Prop :=
  x.major < y.major ∨
    (x.major = y.major ∧
      (x.minor < y.minor ∨ (x.minor = y.minor ∧ x.patch < y.patch)))

instance (x y : Version) : Decidable (versionLt x y) := by
  unfold versionLt; infer_instance

/-- String.prototype.trim: drop JS whitespace from both ends. -/
def trimChars (s : List Char) : List Char :=
  ((s.dropWhile isSpaceChar).reverse.dropWhile isSpaceChar).reverse

/-- Decimal value of a big-endian digit-character run, the JS number
conversion of a matched \d+ group. -/
def digitsVal (l : List Char) : Nat :=
  l.foldl (fun n c => n * 10 + (c.toNat - 48)) 0

/-- Decimal value of a little-endian list of digit values (proof support
for the rendering round trip). -/
def valRev : List Nat → Nat
  | [] => 0
  | d :: ds => d + 10 * valRev ds

/-- Bit length of a natural number (zero for zero), computed with
explicit fuel so the definition reduces inside the kernel; n steps are
always enough since the argument halves. -/
def bitLenFuel : Nat → Nat → Nat
  | _, 0 => 0
  | 0, _ + 1 => 0
  | f + 1, n + 1 => bitLenFuel f ((n + 1) / 2) + 1

/-- Bit length of a natural number. -/
def bitLen (n : Nat) : Nat := bitLenFuel n n

/-- Value of the IEEE-754 double nearest to a natural number: naturals
below 2 to the 53 are exact; above, the number is rounded to 53
significant bits, round-to-nearest with ties to an even significand.
The model covers the finite double range; decimal runs large enough to
overflow to Infinity (about 1.8e308) are outside the embedding. -/
def jsRound (n : Nat) : Nat :=
  if n < 2 ^ 53 then n
  else
    let e := bitLen n - 53
    let p := 2 ^ e
    let q := n / p
    let r := n % p
    let half := p / 2
    if r < half then q * p
    else if half < r then (q + 1) * p
    else if q % 2 = 0 then q * p else (q + 1) * p

/-- ToNumber of a captured digit run, the unary plus of parseVersion on
a regex group: the exact decimal value rounded to double precision. -/
def jsToNumber (ds : List Char) : Nat := jsRound (digitsVal ds)

/-- IEEE-754 double addition of two naturals held as doubles: the exact
sum, correctly rounded. -/
def jsAdd (a b : Nat) : Nat := jsRound (a + b)

/-- Greedy read of a nonempty digit run, the \d+ groups of the version
regex; returns the run's value as a JS number and the rest of the
input. -/
def readNat (s : List Char) : Option (Nat × List Char) :=
  let ds := s.takeWhile Char.isDigit
  let rest := s.dropWhile Char.isDigit
  if ds.isEmpty then none
  else some (jsToNumber ds, rest)

/-- Reading of the literal dot separating the version groups. -/
def expectDot : List Char → Option (List Char)
  | c :: r => if c = '.' then some r else none
  | [] => none

/-- Anchored match of the version regex (three dot-separated digit runs
spanning the whole input) on an already-trimmed input. Greedy maximal
digit runs coincide with the regex because a digit cannot follow a
completed \d+ group. -/
def coreParseVersion (s : List Char) : Option Version :=
  (readNat s).bind fun p1 =>
    (expectDot p1.2).bind fun r1 =>
      (readNat r1).bind fun p2 =>
        (expectDot p2.2).bind fun r2 =>
          (readNat r2).bind fun p3 =>
            if p3.2.isEmpty then some ⟨p1.1, p2.1, p3.1⟩ else none

/-- parseVersion of src/cli.js: trim the text, then match the anchored
X.Y.Z regex; null models the thrown invalid-version error. The JS
number conversion of the digit groups is modelled as exact natural
numbers. -/
def parseVersion (v : List Char) : Option Version :=
  coreParseVersion (trimChars v)

/-- Decimal digit character for a digit value below ten. -/
def digitChar : Nat → Char
  | 0 => '0'
  | 1 => '1'
  | 2 => '2'
  | 3 => '3'
  | 4 => '4'
  | 5 => '5'
  | 6 => '6'
  | 7 => '7'
  | 8 => '8'
  | 9 => '9'
  | _ => '0'

/-- Little-endian decimal digit values of a natural number (empty for 0),
computed with explicit fuel so the definition reduces inside the kernel;
a fuel of n steps is always enough since the argument shrinks by a
factor of ten. -/
def natDigitsRevFuel : Nat → Nat → List Nat
  | _, 0 => []
  | 0, _ + 1 => []
  | fuel + 1, n + 1 => ((n + 1) % 10) :: natDigitsRevFuel fuel ((n + 1) / 10)

/-- Little-endian decimal digit values of a natural number. -/
def natDigitsRev (n : Nat) : List Nat := natDigitsRevFuel n n

/-- Decimal rendering of a natural number, as JS template interpolation
renders a non-negative integer. -/
def natToDigits (n : Nat) : List Char :=
  match natDigitsRev n with
  | [] => ['0']
  | l => (l.reverse).map digitChar

/-- Rendering of the X.Y.Z template strings of incrementVersion. JS
stringifies an integral double up to 2 to the 53 as its exact decimal
expansion (the ToString closest-and-even rule picks the exact digits
there), which is what the plain decimal rendering produces; every value
the theorems render lies in that range. -/
def renderVersion (a b c : Nat) : List Char :=
  natToDigits a ++ '.' :: (natToDigits b ++ '.' :: natToDigits c)

/-- Statement of the spec's version format, written from the spec's
words for comparison with parseVersion: the text is exactly three
dot-separated nonempty digit runs. -/
def specVersionShape (s : List Char) : Prop :=
  ∃ da db dc : List Char,
    da ≠ [] ∧ db ≠ [] ∧ dc ≠ [] ∧
    (∀ c ∈ da, c.isDigit = true) ∧ (∀ c ∈ db, c.isDigit = true) ∧
    (∀ c ∈ dc, c.isDigit = true) ∧
    s = da ++ '.' :: (db ++ '.' :: dc)

/-- incrementVersion of src/cli.js: parse the current version (none
models the thrown invalid-version error) and render the bumped one;
major zeroes minor and patch, minor zeroes patch, a null bump leaves the
version unchanged. The bumped component is incremented with IEEE double
addition, as the source adds JS numbers. -/
def incrementVersion (version : List Char) (bump : Option BumpLevel) : Option (List Char) :=
  match parseVersion version with
  | none => none
  | some cur =>
    match bump with
    | some .major => some (renderVersion (jsAdd cur.major 1) 0 0)
    | some .minor => some (renderVersion cur.major (jsAdd cur.minor 1) 0)
    | some .patch => some (renderVersion cur.major cur.minor (jsAdd cur.patch 1))
    | none => some (renderVersion cur.major cur.minor cur.patch)

/-- shortSha of src/cli.js: the first seven characters of the hash. -/
def shortSha (sha : String) : String := String.mk (sha.data.take 7)

/-- First line of a commit message followed by trim, as computed by
buildChangelogBody (split on an optional CR followed by LF, first
element, trimmed). Taking the characters before the first LF and
trimming is equivalent: the only divergence, a CR immediately before
the first LF, is removed by the trim in both readings. -/
def firstLineSubject (msg : List Char) : List Char :=
  trimChars (msg.takeWhile (fun c => c ≠ '\n'))

/-- One changelog entry line: short hash, a space, the subject. -/
def changelogLine (hash : String) (msg : String) : String :=
  shortSha hash ++ " " ++ String.mk (firstLineSubject msg.data)

/-- Buckets of buildChangelogBody, in the order they are emitted. -/
structure ChangelogBuckets where
  breakings : List String
  features : List String
  fixes : List String
  others : List String
deriving DecidableEq, Repr

/-- Bucket-filling loop of buildChangelogBody: each commit (hash and full
message, the git lookup being modelled by passing the message) is
classified and its entry line appended to the bucket of its level,
unclassified commits going to others. -/
def bucketCommits : List (String × String) → ChangelogBuckets
  | [] => ⟨[], [], [], []⟩
  | (h, m) :: rest =>
    let line := changelogLine h m
    let b := bucketCommits rest
    match classifySingleCommit m with
    | some .major => { b with breakings := line :: b.breakings }
    | some .minor => { b with features := line :: b.features }
    | some .patch => { b with fixes := line :: b.fixes }
    | none => { b with others := line :: b.others }

/-- Section rendering of buildChangelogBody: the heading, a newline, and
the entry lines joined by newlines. -/
def renderSection (title : String) (entries : List String) : String :=
  title ++ "\n" ++ String.intercalate "\n" entries

/-- Conditional section pushes of buildChangelogBody: a section per
non-empty bucket, in the fixed order breaking, features, fixes, others. -/
def changelogSections (b : ChangelogBuckets) : List String :=
  (if b.breakings.isEmpty then [] else [renderSection "### ✨ Breaking Changes" b.breakings]) ++
  (if b.features.isEmpty then [] else [renderSection "### ✨ Features" b.features]) ++
  (if b.fixes.isEmpty then [] else [renderSection "### 🐛 Fixes" b.fixes]) ++
  (if b.others.isEmpty then [] else [renderSection "### 🧹 Others" b.others])

/-- Header template of buildChangelogBody; a falsy (empty) version label
omits the version. The date, read from the clock in the source, is a
parameter here. -/
def changelogHeader (version today : String) : String :=
  if version = "" then "## Release — " ++ today
  else "## Release " ++ version ++ " — " ++ today

/-- buildChangelogBody of src/cli.js: header, blank line, the sections
joined by blank lines, and a trailing newline. -/
def buildChangelogBody (version today : String) (commits : List (String × String)) : String :=
  changelogHeader version today ++ "\n\n" ++
    String.intercalate "\n\n" (changelogSections (bucketCommits commits)) ++ "\n"

/-- Operator choices offered by handleCherryPickConflict for one round of
its menu loop: skip the commit, abort the whole sequence, or enter the
resolution wizard (whose own interactive session either reaches a
successful cherry-pick --continue or comes back to the menu). -/
inductive ConflictAction where
  | skip
  | abort
  | resolve (wizardContinued : Bool)
deriving DecidableEq, Repr

/-- Terminal result of handleCherryPickConflict for one commit. -/
inductive HandleResult where
  | skipped
  | continued
deriving DecidableEq, Repr

/-- handleCherryPickConflict of src/cli.js: loop over operator actions;
skip returns skipped, abort throws the sequence-abort error (Except
error), a resolution round returning continued finishes the commit, and
a round coming back re-enters the menu. none models a session whose
scripted operator input runs out, i.e. a run that never terminates. -/
def handleCherryPickConflict : List ConflictAction → Option (Except Unit HandleResult)
  | [] => none
  | .skip :: _ => some (.ok .skipped)
  | .abort :: _ => some (.error ())
  | .resolve true :: _ => some (.ok .continued)
  | .resolve false :: rest => handleCherryPickConflict rest

/-- Behaviour of one cherry-pick attempt: either the plain cherry-pick
command succeeds, or it fails with conflicts and the conflict handler
runs with the given operator script. -/
inductive PickAttempt where
  | clean
  | conflicted (script : List ConflictAction)
deriving DecidableEq, Repr

/-- Result counters of cherryPickSequential. -/
structure PickStats where
  applied : Nat
  skipped : Nat
deriving DecidableEq, Repr

/-- Loop of cherryPickSequential with the accumulated counters: a clean
pick increments applied; a conflicted pick defers to the handler, whose
skipped and continued results increment skipped and applied, and whose
abort error propagates. none models a run that never terminates. -/
def cherryPickSequentialAux (acc : PickStats) :
    List PickAttempt → Option (Except Unit PickStats)
  | [] => some (.ok acc)
  | .clean :: rest => cherryPickSequentialAux ⟨acc.applied + 1, acc.skipped⟩ rest
  | .conflicted script :: rest =>
    match handleCherryPickConflict script with
    | none => none
    | some (.error e) => some (.error e)
    | some (.ok .skipped) => cherryPickSequentialAux ⟨acc.applied, acc.skipped + 1⟩ rest
    | some (.ok .continued) => cherryPickSequentialAux ⟨acc.applied + 1, acc.skipped⟩ rest

/-- cherryPickSequential of src/cli.js, starting from zero counters. Each
hash of the input is represented by the behaviour of its attempt; VCS
commands other than the conflicting cherry-pick itself are assumed to
succeed, as in the spec's state machine. -/
def cherryPickSequential (attempts : List PickAttempt) : Option (Except Unit PickStats) :=
  cherryPickSequentialAux ⟨0, 0⟩ attempts

/-- Externally observable steps of main after cherryPickSequential
returns its counters (lines 625 to 674 of src/cli.js). -/
inductive ReleaseStep where
  | cherryPickAbortCleanup
  | versionBumpCommit
  | pushBranch
  | createPullRequest
deriving DecidableEq, Repr

/-- Outcome of the tail of main: the steps it performs, and the fatal
error it raises if any. -/
structure RunOutcome where
  steps : List ReleaseStep
  failure : Option String
deriving DecidableEq, Repr

/-- Tail of main after the cherry-pick summary: when zero commits were
applied, a best-effort cherry-pick --abort is attempted (abortOk says
whether it succeeds; its failure is swallowed by the empty catch) and
the nothing-applied error is raised; otherwise, when push-release is
set, the version bump commit, the push and the PR creation follow. -/
def afterCherryPick (stats : PickStats) (pushRelease abortOk : Bool) : RunOutcome :=
  if stats.applied = 0 then
    { steps := [.cherryPickAbortCleanup],
      failure := some "Nothing cherry-picked" }
  else if pushRelease then
    { steps := [.versionBumpCommit, .pushBranch, .createPullRequest], failure := none }
  else
    { steps := [], failure := none }

/-! Theorems. -/

/-- Claim C1: filterMissing returns exactly the commits of the dev list
whose subject is not in the main-subjects set, in the dev list's order
(a sublist), with the two edge cases: an empty subject set keeps the
dev list unchanged and an empty dev list yields the empty list. -/
theorem filterMissing_spec (B : List Commit) (A : List String) :
    (filterMissing B A).Sublist B ∧
    (∀ c, c ∈ filterMissing B A ↔ c ∈ B ∧ c.subject ∉ A) ∧
    filterMissing B [] = B ∧
    filterMissing ([] : List Commit) A = [] := by
  refine ⟨List.filter_sublist _, ?_, ?_, rfl⟩
  · intro c
    simp [filterMissing, List.mem_filter]
  · simp [filterMissing]

/-- Counting invariant of the cherry-pick loop, generalized over the
accumulator: a normal return adds exactly one applied or skipped unit
per attempt. -/
theorem cherryPickSequentialAux_counts :
    ∀ (attempts : List PickAttempt) (acc stats : PickStats),
      cherryPickSequentialAux acc attempts = some (.ok stats) →
      stats.applied + stats.skipped = acc.applied + acc.skipped + attempts.length := by
  intro attempts
  induction attempts with
  | nil =>
    intro acc stats h
    simp [cherryPickSequentialAux] at h
    simp [← h]
  | cons a rest ih =>
    intro acc stats h
    cases a with
    | clean =>
      have := ih ⟨acc.applied + 1, acc.skipped⟩ stats h
      simp at this
      simp [this]
      omega
    | conflicted script =>
      rw [cherryPickSequentialAux] at h
      cases hh : handleCherryPickConflict script with
      | none => rw [hh] at h; simp at h
      | some r =>
        rw [hh] at h
        cases r with
        | error e => simp at h
        | ok hr =>
          cases hr with
          | skipped =>
            have := ih ⟨acc.applied, acc.skipped + 1⟩ stats h
            simp at this
            simp [this]
            omega
          | continued =>
            have := ih ⟨acc.applied + 1, acc.skipped⟩ stats h
            simp at this
            simp [this]
            omega

/-- Claim C2: any run of cherryPickSequential that terminates normally
(no operator abort) returns counters with applied plus skipped equal to
the number of attempted commits. -/
theorem cherryPickSequential_counts (attempts : List PickAttempt) (stats : PickStats)
    (h : cherryPickSequential attempts = some (.ok stats)) :
    stats.applied + stats.skipped = attempts.length := by
  have := cherryPickSequentialAux_counts attempts ⟨0, 0⟩ stats h
  simpa using this

/-- Witness for claim C2: a clean pick followed by a conflict the
operator skips gives one applied, one skipped, two attempts. -/
theorem cherryPickSequential_counts_witness :
    (⟨1, 1⟩ : PickStats).applied + (⟨1, 1⟩ : PickStats).skipped =
      [PickAttempt.clean, PickAttempt.conflicted [ConflictAction.skip]].length :=
  cherryPickSequential_counts [PickAttempt.clean, PickAttempt.conflicted [ConflictAction.skip]]
    ⟨1, 1⟩ rfl

/-- Claim C9: when the cherry-pick run ends with zero applied commits,
the controller attempts the best-effort abort cleanup, raises the
nothing-applied failure whether or not the cleanup succeeded, and
performs none of the version bump, push or PR creation steps. -/
theorem afterCherryPick_nothingApplied (stats : PickStats) (pushRelease abortOk : Bool)
    (h : stats.applied = 0) :
    afterCherryPick stats pushRelease abortOk =
      { steps := [.cherryPickAbortCleanup], failure := some "Nothing cherry-picked" } ∧
    ReleaseStep.versionBumpCommit ∉ (afterCherryPick stats pushRelease abortOk).steps ∧
    ReleaseStep.pushBranch ∉ (afterCherryPick stats pushRelease abortOk).steps ∧
    ReleaseStep.createPullRequest ∉ (afterCherryPick stats pushRelease abortOk).steps ∧
    afterCherryPick stats pushRelease true = afterCherryPick stats pushRelease false := by
  simp [afterCherryPick, h]

/-- Witness for claim C9 at the concrete counters zero applied, three
skipped. -/
theorem afterCherryPick_nothingApplied_witness :
    afterCherryPick ⟨0, 3⟩ true true =
      { steps := [.cherryPickAbortCleanup], failure := some "Nothing cherry-picked" } ∧
    ReleaseStep.versionBumpCommit ∉ (afterCherryPick ⟨0, 3⟩ true true).steps ∧
    ReleaseStep.pushBranch ∉ (afterCherryPick ⟨0, 3⟩ true true).steps ∧
    ReleaseStep.createPullRequest ∉ (afterCherryPick ⟨0, 3⟩ true true).steps ∧
    afterCherryPick ⟨0, 3⟩ true true = afterCherryPick ⟨0, 3⟩ true false :=
  afterCherryPick_nothingApplied ⟨0, 3⟩ true true rfl

/-- Claim C4: the classifier evaluates its markers in strict priority
order, so a breaking-change match forces major no matter what else the
message contains. -/
theorem classifySingleCommit_breaking_major (msg : String)
    (h : breakingTest (normalizeMessage msg.data) = true) :
    classifySingleCommit msg = some .major := by
  simp [classifySingleCommit, classifyCore, h]

/-- Witness for claim C4: a message carrying both a feat prefix and a
breaking-change marker classifies as major, not minor. -/
theorem classifySingleCommit_breaking_major_witness :
    hasLineLead ["feat".data]
        (normalizeMessage "feat: add x\n\nBREAKING CHANGE: api removed".data) = true ∧
    classifySingleCommit "feat: add x\n\nBREAKING CHANGE: api removed" = some .major :=
  ⟨by decide,
   classifySingleCommit_breaking_major "feat: add x\n\nBREAKING CHANGE: api removed" (by decide)⟩

/-- Collapse yields major exactly when a major level is present. -/
theorem collapseBumps_eq_major_iff (L : List BumpLevel) :
    collapseBumps L = some BumpLevel.major ↔ BumpLevel.major ∈ L := by
  unfold collapseBumps
  by_cases h : BumpLevel.major ∈ L
  · simp [h]
  · by_cases h2 : BumpLevel.minor ∈ L <;> by_cases h3 : BumpLevel.patch ∈ L <;>
      simp [h, h2, h3]

/-- The collected levels of the early-exit loop agree with classifying
every message: they contain a major exactly when the full classification
does, and they are equal to the full classification when no major
occurs. -/
theorem collectLevels_spec (msgs : List String) :
    (BumpLevel.major ∈ collectLevels msgs ↔
      BumpLevel.major ∈ msgs.filterMap classifySingleCommit) ∧
    (BumpLevel.major ∉ msgs.filterMap classifySingleCommit →
      collectLevels msgs = msgs.filterMap classifySingleCommit) := by
  induction msgs with
  | nil => simp [collectLevels]
  | cons m rest ih =>
    cases hc : classifySingleCommit m with
    | none =>
      simp only [collectLevels, hc, List.filterMap_cons_none hc]
      exact ih
    | some l =>
      simp only [collectLevels, hc, List.filterMap_cons_some hc]
      cases l with
      | major => simp
      | minor =>
        constructor
        · simp only [if_neg (by decide : ¬ BumpLevel.minor = BumpLevel.major)]
          simp [ih.1]
        · intro h
          rw [List.mem_cons, not_or] at h
          simp only [if_neg (by decide : ¬ BumpLevel.minor = BumpLevel.major)]
          rw [ih.2 h.2]
      | patch =>
        constructor
        · simp only [if_neg (by decide : ¬ BumpLevel.patch = BumpLevel.major)]
          simp [ih.1]
        · intro h
          rw [List.mem_cons, not_or] at h
          simp only [if_neg (by decide : ¬ BumpLevel.patch = BumpLevel.major)]
          rw [ih.2 h.2]

/-- Claim C5: the short-circuiting bump computation returns the same
level as classifying every message and collapsing all the levels; the
early exit on major never changes the result. -/
theorem computeSemanticBumpForCommits_eq_collapse (msgs : List String) :
    computeSemanticBumpForCommits msgs =
      collapseBumps (msgs.filterMap classifySingleCommit) := by
  cases msgs with
  | nil => simp [computeSemanticBumpForCommits, collapseBumps]
  | cons m rest =>
    rw [computeSemanticBumpForCommits]
    by_cases h : BumpLevel.major ∈ (m :: rest).filterMap classifySingleCommit
    · have h1 : collapseBumps ((m :: rest).filterMap classifySingleCommit) =
          some BumpLevel.major :=
        (collapseBumps_eq_major_iff _).mpr h
      have h2 : collapseBumps (collectLevels (m :: rest)) = some BumpLevel.major :=
        (collapseBumps_eq_major_iff _).mpr ((collectLevels_spec (m :: rest)).1.mpr h)
      rw [h1, h2]
    · rw [(collectLevels_spec (m :: rest)).2 h]

/-- Insertion into the descending-index order keeps the multiset. -/
theorem insertDescIdx_perm (idx : String → Nat) (x : String) :
    ∀ l : List String, (insertDescIdx idx x l).Perm (x :: l) := by
  intro l
  induction l with
  | nil => simp [insertDescIdx]
  | cons y t ih =>
    rw [insertDescIdx]
    by_cases h : idx y ≤ idx x
    · simp [h]
    · simp only [if_neg h]
      exact ((ih.cons y).trans (List.Perm.swap x y t))

/-- Claim C3 sorting lemma: the insertion keeps the list ordered by
weakly descending index. -/
theorem insertDescIdx_pairwise (idx : String → Nat) (x : String) :
    ∀ l : List String, l.Pairwise (fun a b => idx b ≤ idx a) →
      (insertDescIdx idx x l).Pairwise (fun a b => idx b ≤ idx a) := by
  intro l
  induction l with
  | nil => intro _; simp [insertDescIdx]
  | cons y t ih =>
    intro hp
    rw [insertDescIdx]
    rcases List.pairwise_cons.mp hp with ⟨hy, ht⟩
    by_cases h : idx y ≤ idx x
    · rw [if_pos h]
      refine List.pairwise_cons.mpr ⟨?_, hp⟩
      intro b hb
      rcases List.mem_cons.mp hb with rfl | hb2
      · exact h
      · exact le_trans (hy b hb2) h
    · rw [if_neg h]
      refine List.pairwise_cons.mpr ⟨?_, ih ht⟩
      intro b hb
      have hmem := (insertDescIdx_perm idx x t).mem_iff.mp hb
      rcases List.mem_cons.mp hmem with rfl | hb2
      · omega
      · exact hy b hb2

/-- Stability of the insertion step: restricting to any fixed index
value commutes with insertion, since the elements passed over all have a
strictly larger index. -/
theorem insertDescIdx_filter (idx : String → Nat) (x : String) (k : Nat) :
    ∀ l : List String,
      (insertDescIdx idx x l).filter (fun h => idx h == k) =
        (x :: l).filter (fun h => idx h == k) := by
  intro l
  induction l with
  | nil => simp [insertDescIdx]
  | cons y t ih =>
    rw [insertDescIdx]
    by_cases h : idx y ≤ idx x
    · rw [if_pos h]
    · rw [if_neg h]
      by_cases hx : idx x = k <;> by_cases hy : idx y = k
      · exact absurd (by omega : idx y ≤ idx x) h
      · simp only [List.filter_cons]
        simp only [ih, List.filter_cons]
        simp [hx, hy]
      · simp only [List.filter_cons]
        simp only [ih, List.filter_cons]
        simp [hx, hy]
      · simp only [List.filter_cons]
        simp only [ih, List.filter_cons]
        simp [hx, hy]

/-- Sorting an already descending list is the identity. -/
theorem sortDescIdx_of_pairwise (idx : String → Nat) :
    ∀ l : List String, l.Pairwise (fun a b => idx b ≤ idx a) → sortDescIdx idx l = l := by
  intro l
  induction l with
  | nil => simp [sortDescIdx]
  | cons x t ih =>
    intro hp
    rcases List.pairwise_cons.mp hp with ⟨hx, ht⟩
    rw [sortDescIdx, ih ht]
    cases t with
    | nil => simp [insertDescIdx]
    | cons y t2 =>
      rw [insertDescIdx, if_pos (hx y (by simp))]

/-- Permutation property of the full sort. -/
theorem sortDescIdx_perm (idx : String → Nat) :
    ∀ l : List String, (sortDescIdx idx l).Perm l := by
  intro l
  induction l with
  | nil => simp [sortDescIdx]
  | cons x t ih =>
    rw [sortDescIdx]
    exact (insertDescIdx_perm idx x (sortDescIdx idx t)).trans (ih.cons x)

/-- Sortedness of the full sort. -/
theorem sortDescIdx_pairwise (idx : String → Nat) :
    ∀ l : List String, (sortDescIdx idx l).Pairwise (fun a b => idx b ≤ idx a) := by
  intro l
  induction l with
  | nil => simp [sortDescIdx]
  | cons x t ih =>
    rw [sortDescIdx]
    exact insertDescIdx_pairwise idx x _ ih

/-- Claim C3: re-ordering a selection with the index map is a stable
sort by descending original index — the result is a permutation of the
selection, is ordered by weakly descending index, and preserves the
original relative order of entries with equal index — and the
re-ordering is idempotent. -/
theorem sortDescIdx_spec (idx : String → Nat) (sel : List String) :
    (sortDescIdx idx sel).Perm sel ∧
    (sortDescIdx idx sel).Pairwise (fun a b => idx b ≤ idx a) ∧
    (∀ k, (sortDescIdx idx sel).filter (fun h => idx h == k) =
      sel.filter (fun h => idx h == k)) ∧
    sortDescIdx idx (sortDescIdx idx sel) = sortDescIdx idx sel := by
  refine ⟨sortDescIdx_perm idx sel, sortDescIdx_pairwise idx sel, ?_, ?_⟩
  · intro k
    induction sel with
    | nil => simp [sortDescIdx]
    | cons x t ih =>
      rw [sortDescIdx, insertDescIdx_filter]
      simp only [List.filter_cons]
      rw [ih]
  · exact sortDescIdx_of_pairwise idx _ (sortDescIdx_pairwise idx sel)

/-- Digit characters are digits. -/
theorem digitChar_isDigit (d : Nat) (h : d < 10) : (digitChar d).isDigit = true := by
  interval_cases d <;> decide

/-- Code point of a digit character. -/
theorem digitChar_toNat (d : Nat) (h : d < 10) : (digitChar d).toNat = 48 + d := by
  interval_cases d <;> decide

/-- Digit characters are not whitespace. -/
theorem digitChar_not_space (d : Nat) (h : d < 10) : isSpaceChar (digitChar d) = false := by
  interval_cases d <;> decide

/-- The fuelled digit expansion does not depend on the fuel once the fuel
covers the number. -/
theorem natDigitsRevFuel_congr :
    ∀ f1 f2 n : Nat, n ≤ f1 → n ≤ f2 → natDigitsRevFuel f1 n = natDigitsRevFuel f2 n := by
  intro f1
  induction f1 with
  | zero =>
    intro f2 n h1 _
    interval_cases n
    cases f2 <;> rfl
  | succ g1 ih =>
    intro f2 n h1 h2
    cases n with
    | zero => cases f2 <;> rfl
    | succ m =>
      cases f2 with
      | zero => omega
      | succ g2 =>
        rw [natDigitsRevFuel, natDigitsRevFuel]
        have hdiv : (m + 1) / 10 ≤ g1 := by
          have := Nat.div_lt_self (Nat.succ_pos m) (by omega : 1 < 10)
          omega
        have hdiv2 : (m + 1) / 10 ≤ g2 := by
          have := Nat.div_lt_self (Nat.succ_pos m) (by omega : 1 < 10)
          omega
        rw [ih g2 ((m + 1) / 10) hdiv hdiv2]

/-- Recurrence of the decimal digit expansion. -/
theorem natDigitsRev_eq (n : Nat) :
    natDigitsRev n = if n = 0 then [] else n % 10 :: natDigitsRev (n / 10) := by
  cases n with
  | zero => rfl
  | succ m =>
    rw [if_neg (Nat.succ_ne_zero m)]
    show natDigitsRevFuel (m + 1) (m + 1) = (m + 1) % 10 :: natDigitsRevFuel ((m + 1) / 10) ((m + 1) / 10)
    rw [natDigitsRevFuel]
    have hdiv : (m + 1) / 10 ≤ m := by
      have := Nat.div_lt_self (Nat.succ_pos m) (by omega : 1 < 10)
      omega
    rw [natDigitsRevFuel_congr m ((m + 1) / 10) ((m + 1) / 10) hdiv (le_refl _)]

/-- Every digit value of the expansion is below ten. -/
theorem natDigitsRev_lt_ten (n : Nat) : ∀ d ∈ natDigitsRev n, d < 10 := by
  induction n using Nat.strong_induction_on with
  | _ n ih =>
    rw [natDigitsRev_eq]
    by_cases h : n = 0
    · simp [h]
    · rw [if_neg h]
      intro d hd
      rcases List.mem_cons.mp hd with rfl | hd2
      · exact Nat.mod_lt _ (by omega)
      · exact ih (n / 10) (Nat.div_lt_self (by omega) (by omega)) d hd2

/-- The little-endian value of the expansion recovers the number. -/
theorem valRev_natDigitsRev (n : Nat) : valRev (natDigitsRev n) = n := by
  induction n using Nat.strong_induction_on with
  | _ n ih =>
    rw [natDigitsRev_eq]
    by_cases h : n = 0
    · simp [h, valRev]
    · rw [if_neg h, valRev, ih (n / 10) (Nat.div_lt_self (by omega) (by omega))]
      omega

/-- Big-endian folding over a reversed little-endian digit list computes
its value. -/
theorem digitsVal_reverse_map :
    ∀ ds : List Nat, (∀ d ∈ ds, d < 10) →
      digitsVal ((ds.reverse).map digitChar) = valRev ds := by
  intro ds
  induction ds with
  | nil => intro _; rfl
  | cons d t ih =>
    intro hds
    have hd : d < 10 := hds d (by simp)
    have ht : ∀ x ∈ t, x < 10 := fun x hx => hds x (by simp [hx])
    rw [List.reverse_cons, List.map_append]
    simp only [List.map_cons, List.map_nil]
    have happ : digitsVal ((t.reverse).map digitChar ++ [digitChar d]) =
        digitsVal ((t.reverse).map digitChar) * 10 + ((digitChar d).toNat - 48) := by
      unfold digitsVal
      rw [List.foldl_append]
      rfl
    rw [happ, ih ht, digitChar_toNat d hd, valRev]
    omega

/-- The digit rendering of a number is nonempty. -/
theorem natToDigits_ne_nil (n : Nat) : natToDigits n ≠ [] := by
  unfold natToDigits
  cases h : natDigitsRev n with
  | nil => simp
  | cons d t => simp

/-- Every character of the digit rendering is a digit. -/
theorem natToDigits_isDigit (n : Nat) : ∀ c ∈ natToDigits n, c.isDigit = true := by
  unfold natToDigits
  cases h : natDigitsRev n with
  | nil =>
    intro c hc
    rcases List.mem_singleton.mp hc with rfl
    decide
  | cons d t =>
    intro c hc
    rcases List.mem_map.mp hc with ⟨x, hx, rfl⟩
    have hx2 : x ∈ natDigitsRev n := by rw [h]; exact List.mem_reverse.mp hx
    exact digitChar_isDigit x (natDigitsRev_lt_ten n x hx2)

/-- No character of the digit rendering is whitespace. -/
theorem natToDigits_not_space (n : Nat) : ∀ c ∈ natToDigits n, isSpaceChar c = false := by
  unfold natToDigits
  cases h : natDigitsRev n with
  | nil =>
    intro c hc
    rcases List.mem_singleton.mp hc with rfl
    decide
  | cons d t =>
    intro c hc
    rcases List.mem_map.mp hc with ⟨x, hx, rfl⟩
    have hx2 : x ∈ natDigitsRev n := by rw [h]; exact List.mem_reverse.mp hx
    exact digitChar_not_space x (natDigitsRev_lt_ten n x hx2)

/-- Round trip of rendering and the numeric value of the digit run. -/
theorem digitsVal_natToDigits (n : Nat) : digitsVal (natToDigits n) = n := by
  unfold natToDigits
  cases h : natDigitsRev n with
  | nil =>
    have hn : n = 0 := by
      by_contra hne
      rw [natDigitsRev_eq, if_neg hne] at h
      cases h
    simp [hn, digitsVal]
  | cons d t =>
    have : digitsVal (((d :: t).reverse).map digitChar) = valRev (d :: t) := by
      apply digitsVal_reverse_map
      intro x hx
      exact natDigitsRev_lt_ten n x (h ▸ hx)
    rw [this, ← h, valRev_natDigitsRev]

/-- takeWhile of a satisfied run followed by a failing character stops
exactly at the run. -/
theorem takeWhile_run_append (p : Char → Bool) :
    ∀ (da : List Char) (x : Char) (r : List Char), (∀ c ∈ da, p c = true) → p x = false →
      (da ++ x :: r).takeWhile p = da ∧ (da ++ x :: r).dropWhile p = x :: r := by
  intro da
  induction da with
  | nil =>
    intro x r _ hx
    simp [List.takeWhile_cons, List.dropWhile_cons, hx]
  | cons c t ih =>
    intro x r hall hx
    have hc : p c = true := hall c (by simp)
    have ht : ∀ y ∈ t, p y = true := fun y hy => hall y (by simp [hy])
    rcases ih x r ht hx with ⟨h1, h2⟩
    simp [List.takeWhile_cons, List.dropWhile_cons, hc, h1, h2]

/-- takeWhile of an entirely satisfied list is the list. -/
theorem takeWhile_run_all (p : Char → Bool) :
    ∀ da : List Char, (∀ c ∈ da, p c = true) →
      da.takeWhile p = da ∧ da.dropWhile p = [] := by
  intro da
  induction da with
  | nil => intro _; simp
  | cons c t ih =>
    intro hall
    have hc : p c = true := hall c (by simp)
    have ht : ∀ y ∈ t, p y = true := fun y hy => hall y (by simp [hy])
    rcases ih ht with ⟨h1, h2⟩
    simp [List.takeWhile_cons, List.dropWhile_cons, hc, h1, h2]

/-- dropWhile of a list with no satisfied character is the list. -/
theorem dropWhile_none (p : Char → Bool) :
    ∀ s : List Char, (∀ c ∈ s, p c = false) → s.dropWhile p = s := by
  intro s
  induction s with
  | nil => intro _; rfl
  | cons c t _ =>
    intro hall
    have hc : p c = false := hall c (by simp)
    simp [List.dropWhile_cons, hc]

/-- Trimming is the identity on a string with no whitespace. -/
theorem trimChars_eq_self (s : List Char) (h : ∀ c ∈ s, isSpaceChar c = false) :
    trimChars s = s := by
  unfold trimChars
  rw [dropWhile_none isSpaceChar s h]
  rw [dropWhile_none isSpaceChar s.reverse (fun c hc => h c (List.mem_reverse.mp hc))]
  exact List.reverse_reverse s

/-- Naturals below the 53-bit significand limit round to themselves. -/
theorem jsRound_small (n : Nat) (h : n < 2 ^ 53) : jsRound n = n := by
  unfold jsRound
  rw [if_pos h]

/-- ToNumber of a rendered number recovers its double value. -/
theorem jsToNumber_natToDigits (n : Nat) : jsToNumber (natToDigits n) = jsRound n := by
  unfold jsToNumber
  rw [digitsVal_natToDigits]

/-- Characterization of a successful greedy digit read. -/
theorem readNat_eq_some (s : List Char) (a : Nat) (rest : List Char) :
    readNat s = some (a, rest) ↔
      s.takeWhile Char.isDigit ≠ [] ∧ a = jsToNumber (s.takeWhile Char.isDigit) ∧
        rest = s.dropWhile Char.isDigit := by
  unfold readNat
  by_cases h : (s.takeWhile Char.isDigit).isEmpty
  · rw [if_pos h]
    rw [List.isEmpty_iff] at h
    simp [h]
  · rw [if_neg h]
    rw [List.isEmpty_iff] at h
    constructor
    · intro he
      injection he with he2
      injection he2 with ha hr
      exact ⟨h, ha.symm, hr.symm⟩
    · rintro ⟨_, rfl, rfl⟩
      rfl

/-- A greedy digit read of a nonempty digit run followed by a dot reads
the run and leaves the dot. -/
theorem readNat_append (da : List Char) (r : List Char)
    (hne : da ≠ []) (hd : ∀ c ∈ da, c.isDigit = true) :
    readNat (da ++ '.' :: r) = some (jsToNumber da, '.' :: r) := by
  rcases takeWhile_run_append Char.isDigit da '.' r hd (by decide) with ⟨h1, h2⟩
  rw [readNat_eq_some]
  exact ⟨by rw [h1]; exact hne, by rw [h1], by rw [h2]⟩

/-- A greedy digit read of a whole nonempty digit run consumes it all. -/
theorem readNat_all (da : List Char) (hne : da ≠ []) (hd : ∀ c ∈ da, c.isDigit = true) :
    readNat da = some (jsToNumber da, []) := by
  rcases takeWhile_run_all Char.isDigit da hd with ⟨h1, h2⟩
  rw [readNat_eq_some]
  exact ⟨by rw [h1]; exact hne, by rw [h1], by rw [h2]⟩

/-- The anchored version matcher succeeds on a rendered version and
recovers its components. -/
theorem coreParseVersion_render (a b c : Nat) :
    coreParseVersion (renderVersion a b c) = some ⟨jsRound a, jsRound b, jsRound c⟩ := by
  unfold coreParseVersion renderVersion
  rw [readNat_append (natToDigits a) (natToDigits b ++ '.' :: natToDigits c)
    (natToDigits_ne_nil a) (natToDigits_isDigit a)]
  rw [Option.some_bind]
  rw [show expectDot ('.' :: (natToDigits b ++ '.' :: natToDigits c)) =
    some (natToDigits b ++ '.' :: natToDigits c) from rfl]
  rw [Option.some_bind]
  rw [readNat_append (natToDigits b) (natToDigits c)
    (natToDigits_ne_nil b) (natToDigits_isDigit b)]
  rw [Option.some_bind]
  rw [show expectDot ('.' :: natToDigits c) = some (natToDigits c) from rfl]
  rw [Option.some_bind]
  rw [readNat_all (natToDigits c) (natToDigits_ne_nil c) (natToDigits_isDigit c)]
  rw [Option.some_bind]
  rw [jsToNumber_natToDigits, jsToNumber_natToDigits, jsToNumber_natToDigits]
  rfl

/-- No character of a rendered version is whitespace. -/
theorem renderVersion_not_space (a b c : Nat) :
    ∀ ch ∈ renderVersion a b c, isSpaceChar ch = false := by
  intro ch hch
  unfold renderVersion at hch
  rcases List.mem_append.mp hch with h1 | h2
  · exact natToDigits_not_space a ch h1
  · rcases List.mem_cons.mp h2 with rfl | h3
    · decide
    · rcases List.mem_append.mp h3 with h4 | h5
      · exact natToDigits_not_space b ch h4
      · rcases List.mem_cons.mp h5 with rfl | h6
        · decide
        · exact natToDigits_not_space c ch h6

/-- parseVersion succeeds on a rendered version: trimming is the
identity there and the anchored matcher recovers the components. -/
theorem parseVersion_render (a b c : Nat) :
    parseVersion (renderVersion a b c) = some ⟨jsRound a, jsRound b, jsRound c⟩ := by
  rw [parseVersion, trimChars_eq_self _ (renderVersion_not_space a b c),
    coreParseVersion_render]

/-- Counterexample to claim C6 as stated: at the valid version
9007199254740992.0.0 (major component 2 to the 53) the major increment
collapses, since JS double addition rounds 2 to the 53 plus one back to
2 to the 53; increment(v, major) is then not above increment(v, minor)
under the version order but strictly below it, refuting the claimed
chain. -/
theorem incrementVersion_overflow_counterexample :
    parseVersion "9007199254740992.0.0".data = some ⟨9007199254740992, 0, 0⟩ ∧
    incrementVersion "9007199254740992.0.0".data (some .major) =
      some "9007199254740992.0.0".data ∧
    incrementVersion "9007199254740992.0.0".data (some .minor) =
      some "9007199254740992.1.0".data ∧
    parseVersion "9007199254740992.1.0".data = some ⟨9007199254740992, 1, 0⟩ ∧
    ¬ versionLt ⟨9007199254740992, 1, 0⟩ ⟨9007199254740992, 0, 0⟩ ∧
    versionLt ⟨9007199254740992, 0, 0⟩ ⟨9007199254740992, 1, 0⟩ := by
  decide

/-- Claim C6, as amended: for every valid current version whose bumped
components stay below 2 to the 53 (exactly representable as IEEE-754
doubles, so the double addition of the source is exact), incrementing
succeeds for every bump level and the results are strictly ordered
under the lexicographic version order: patch above the current version,
minor above patch, major above minor. -/
theorem incrementVersion_strictMono (v : List Char) (pv : Version)
    (hv : parseVersion v = some pv)
    (hM : pv.major + 1 < 2 ^ 53) (hm : pv.minor + 1 < 2 ^ 53) (hp : pv.patch + 1 < 2 ^ 53) :
    ∃ sp sm sM : List Char, ∃ pp pm pM : Version,
      incrementVersion v (some .patch) = some sp ∧ parseVersion sp = some pp ∧
      incrementVersion v (some .minor) = some sm ∧ parseVersion sm = some pm ∧
      incrementVersion v (some .major) = some sM ∧ parseVersion sM = some pM ∧
      versionLt pv pp ∧ versionLt pp pm ∧ versionLt pm pM := by
  have hM0 : pv.major < 2 ^ 53 := by omega
  have hm0 : pv.minor < 2 ^ 53 := by omega
  have h0 : (0 : Nat) < 2 ^ 53 := by norm_num
  have hap : jsAdd pv.patch 1 = pv.patch + 1 := by
    unfold jsAdd; exact jsRound_small _ hp
  have ham : jsAdd pv.minor 1 = pv.minor + 1 := by
    unfold jsAdd; exact jsRound_small _ hm
  have haM : jsAdd pv.major 1 = pv.major + 1 := by
    unfold jsAdd; exact jsRound_small _ hM
  refine ⟨renderVersion pv.major pv.minor (jsAdd pv.patch 1),
    renderVersion pv.major (jsAdd pv.minor 1) 0,
    renderVersion (jsAdd pv.major 1) 0 0,
    ⟨pv.major, pv.minor, pv.patch + 1⟩,
    ⟨pv.major, pv.minor + 1, 0⟩,
    ⟨pv.major + 1, 0, 0⟩, ?_, ?_, ?_, ?_, ?_, ?_, ?_, ?_, ?_⟩
  · rw [incrementVersion, hv]
  · rw [parseVersion_render, hap, jsRound_small _ hM0, jsRound_small _ hm0,
      jsRound_small _ hp]
  · rw [incrementVersion, hv]
  · rw [parseVersion_render, ham, jsRound_small _ hM0, jsRound_small _ hm,
      jsRound_small _ h0]
  · rw [incrementVersion, hv]
  · rw [parseVersion_render, haM, jsRound_small _ hM, jsRound_small _ h0]
  · simp [versionLt]
  · simp [versionLt]
  · simp [versionLt]

/-- Witness for the amended claim C6 at the concrete version 1.2.3. -/
theorem incrementVersion_strictMono_witness :
    ∃ sp sm sM : List Char, ∃ pp pm pM : Version,
      incrementVersion "1.2.3".data (some .patch) = some sp ∧ parseVersion sp = some pp ∧
      incrementVersion "1.2.3".data (some .minor) = some sm ∧ parseVersion sm = some pm ∧
      incrementVersion "1.2.3".data (some .major) = some sM ∧ parseVersion sM = some pM ∧
      versionLt ⟨1, 2, 3⟩ pp ∧ versionLt pp pm ∧ versionLt pm pM :=
  incrementVersion_strictMono "1.2.3".data ⟨1, 2, 3⟩ (by decide) (by decide) (by decide)
    (by decide)

/-- A successful dot read means the input begins with a dot. -/
theorem expectDot_eq_some (l r : List Char) : expectDot l = some r ↔ l = '.' :: r := by
  cases l with
  | nil => simp [expectDot]
  | cons c t =>
    by_cases hc : c = '.'
    · subst hc; simp [expectDot]
    · simp [expectDot, hc]

/-- Characterization of a successful anchored version match: the input
splits into exactly three nonempty digit runs separated by dots, and the
components are the runs' decimal values. -/
theorem coreParseVersion_eq_some_iff (s : List Char) (pv : Version) :
    coreParseVersion s = some pv ↔
      ∃ da db dc : List Char, da ≠ [] ∧ db ≠ [] ∧ dc ≠ [] ∧
        (∀ c ∈ da, c.isDigit = true) ∧ (∀ c ∈ db, c.isDigit = true) ∧
        (∀ c ∈ dc, c.isDigit = true) ∧
        s = da ++ '.' :: (db ++ '.' :: dc) ∧
        pv = ⟨jsToNumber da, jsToNumber db, jsToNumber dc⟩ := by
  constructor
  · intro h
    unfold coreParseVersion at h
    cases hr0 : readNat s with
    | none => rw [hr0, Option.none_bind] at h; cases h
    | some p1 =>
      obtain ⟨a, r0⟩ := p1
      rw [hr0, Option.some_bind] at h
      cases hd0 : expectDot r0 with
      | none => rw [hd0, Option.none_bind] at h; cases h
      | some r1 =>
        rw [hd0, Option.some_bind] at h
        cases hr1 : readNat r1 with
        | none => rw [hr1, Option.none_bind] at h; cases h
        | some p2 =>
          obtain ⟨b, r2⟩ := p2
          rw [hr1, Option.some_bind] at h
          cases hd1 : expectDot r2 with
          | none => rw [hd1, Option.none_bind] at h; cases h
          | some r3 =>
            rw [hd1, Option.some_bind] at h
            cases hr2 : readNat r3 with
            | none => rw [hr2, Option.none_bind] at h; cases h
            | some p3 =>
              obtain ⟨cc, r4⟩ := p3
              rw [hr2, Option.some_bind] at h
              by_cases hemp : r4.isEmpty = true
              · rw [if_pos hemp] at h
                injection h with h2
                have hr4 : r4 = [] := List.isEmpty_iff.mp hemp
                rcases (readNat_eq_some s a r0).mp hr0 with ⟨hne1, ha, hb0⟩
                have hd0x : r0 = '.' :: r1 := (expectDot_eq_some r0 r1).mp hd0
                rcases (readNat_eq_some r1 b r2).mp hr1 with ⟨hne2, hb2, hb3⟩
                have hd1x : r2 = '.' :: r3 := (expectDot_eq_some r2 r3).mp hd1
                rcases (readNat_eq_some r3 cc r4).mp hr2 with ⟨hne3, hc2, hc3⟩
                refine ⟨s.takeWhile Char.isDigit, r1.takeWhile Char.isDigit,
                  r3.takeWhile Char.isDigit, hne1, hne2, hne3,
                  fun x hx => List.mem_takeWhile_imp hx,
                  fun x hx => List.mem_takeWhile_imp hx,
                  fun x hx => List.mem_takeWhile_imp hx, ?_, ?_⟩
                · conv_lhs => rw [← List.takeWhile_append_dropWhile Char.isDigit s]
                  rw [← hb0, hd0x]
                  conv_lhs => rw [← List.takeWhile_append_dropWhile Char.isDigit r1]
                  rw [← hb3, hd1x]
                  conv_lhs => rw [← List.takeWhile_append_dropWhile Char.isDigit r3]
                  rw [← hc3, hr4]
                  simp
                · rw [← h2, ha, hb2, hc2]
              · rw [if_neg hemp] at h; cases h
  · rintro ⟨da, db, dc, hne1, hne2, hne3, hd1, hd2, hd3, rfl, rfl⟩
    unfold coreParseVersion
    rw [readNat_append da (db ++ '.' :: dc) hne1 hd1, Option.some_bind]
    rw [show expectDot ('.' :: (db ++ '.' :: dc)) = some (db ++ '.' :: dc) from rfl,
      Option.some_bind]
    rw [readNat_append db dc hne2 hd2, Option.some_bind]
    rw [show expectDot ('.' :: dc) = some dc from rfl, Option.some_bind]
    rw [readNat_all dc hne3 hd3, Option.some_bind]
    rfl

/-- The spec's version shape holds exactly when the anchored matcher
succeeds. -/
theorem specVersionShape_iff (s : List Char) :
    specVersionShape s ↔ ∃ pv, coreParseVersion s = some pv := by
  constructor
  · rintro ⟨da, db, dc, hne1, hne2, hne3, hd1, hd2, hd3, rfl⟩
    exact ⟨⟨jsToNumber da, jsToNumber db, jsToNumber dc⟩,
      (coreParseVersion_eq_some_iff _ _).mpr
        ⟨da, db, dc, hne1, hne2, hne3, hd1, hd2, hd3, rfl, rfl⟩⟩
  · rintro ⟨pv, hpv⟩
    rcases (coreParseVersion_eq_some_iff _ _).mp hpv with
      ⟨da, db, dc, hne1, hne2, hne3, hd1, hd2, hd3, hs, _⟩
    exact ⟨da, db, dc, hne1, hne2, hne3, hd1, hd2, hd3, hs⟩

/-- Counterexample to claim C7 as stated: the text with a leading space
does not match the version format, yet parseVersion accepts it because
the source trims the text before matching. -/
theorem parseVersion_untrimmed_counterexample :
    ¬ specVersionShape " 1.2.3".data ∧ parseVersion " 1.2.3".data = some ⟨1, 2, 3⟩ := by
  constructor
  · intro hs
    rcases (specVersionShape_iff _).mp hs with ⟨pv, hpv⟩
    have hnone : coreParseVersion " 1.2.3".data = none := by decide
    rw [hnone] at hpv
    cases hpv
  · decide

/-- Claim C7 as amended: parseVersion fails exactly when the trimmed
text does not match three dot-separated nonnegative integers, succeeds
exactly when it does, returning the three components converted to JS
numbers (their decimal values rounded to double precision; runs below
2 to the 53 parse exactly), and fails on 1.2; the rounding at
9007199254740993 reproduces the source's double conversion. -/
theorem parseVersion_spec (s : List Char) (pv : Version) :
    (parseVersion s = none ↔ ¬ specVersionShape (trimChars s)) ∧
    (parseVersion s = some pv ↔
      ∃ da db dc : List Char, da ≠ [] ∧ db ≠ [] ∧ dc ≠ [] ∧
        (∀ c ∈ da, c.isDigit = true) ∧ (∀ c ∈ db, c.isDigit = true) ∧
        (∀ c ∈ dc, c.isDigit = true) ∧
        trimChars s = da ++ '.' :: (db ++ '.' :: dc) ∧
        pv = ⟨jsToNumber da, jsToNumber db, jsToNumber dc⟩) ∧
    parseVersion "1.2".data = none ∧
    parseVersion "9007199254740993.0.0".data = some ⟨9007199254740992, 0, 0⟩ := by
  refine ⟨?_, ?_, by decide, by decide⟩
  · rw [parseVersion, specVersionShape_iff]
    cases h : coreParseVersion (trimChars s) <;> simp [h]
  · rw [parseVersion]
    exact coreParseVersion_eq_some_iff _ _

/-- Total bucket size equals the number of commits: each commit lands in
exactly one bucket. -/
theorem bucketCommits_total (commits : List (String × String)) :
    (bucketCommits commits).breakings.length + (bucketCommits commits).features.length +
      (bucketCommits commits).fixes.length + (bucketCommits commits).others.length =
      commits.length := by
  induction commits with
  | nil => rfl
  | cons cm rest ih =>
    obtain ⟨h, m⟩ := cm
    cases hc : classifySingleCommit m with
    | none => simp only [bucketCommits, hc]; simp; omega
    | some l =>
      cases l <;> simp only [bucketCommits, hc] <;> simp <;> omega

/-- The buckets are the classification-filtered projections of the commit
list, in commit order, one rendered line per commit. -/
theorem bucketCommits_eq (commits : List (String × String)) :
    bucketCommits commits =
      ⟨(commits.filter (fun cm => decide (classifySingleCommit cm.2 = some BumpLevel.major))).map
          (fun cm => changelogLine cm.1 cm.2),
        (commits.filter (fun cm => decide (classifySingleCommit cm.2 = some BumpLevel.minor))).map
          (fun cm => changelogLine cm.1 cm.2),
        (commits.filter (fun cm => decide (classifySingleCommit cm.2 = some BumpLevel.patch))).map
          (fun cm => changelogLine cm.1 cm.2),
        (commits.filter (fun cm => decide (classifySingleCommit cm.2 = none))).map
          (fun cm => changelogLine cm.1 cm.2)⟩ := by
  induction commits with
  | nil => rfl
  | cons cm rest ih =>
    obtain ⟨h, m⟩ := cm
    cases hc : classifySingleCommit m with
    | none =>
      simp only [bucketCommits, hc, ih, List.filter_cons]
      simp [hc]
    | some l =>
      cases l <;> simp only [bucketCommits, hc, ih, List.filter_cons] <;> simp [hc]

/-- The emitted sections are exactly the nonempty buckets, in the fixed
order breaking, features, fixes, others. -/
theorem changelogSections_eq (b : ChangelogBuckets) :
    changelogSections b =
      ([("### ✨ Breaking Changes", b.breakings), ("### ✨ Features", b.features),
        ("### 🐛 Fixes", b.fixes), ("### 🧹 Others", b.others)].filter
          (fun p => !p.2.isEmpty)).map (fun p => renderSection p.1 p.2) := by
  by_cases h1 : b.breakings.isEmpty <;> by_cases h2 : b.features.isEmpty <;>
    by_cases h3 : b.fixes.isEmpty <;> by_cases h4 : b.others.isEmpty <;>
    simp [changelogSections, List.filter_cons, h1, h2, h3, h4]

/-- Claim C8: the changelog is the header followed by the sections of the
nonempty buckets in the fixed order breaking, features, fixes, others;
the buckets hold one short-hash-and-subject line per commit classified
into them, in commit order; and the example of one major and one
unclassified commit yields exactly a Breaking Changes section followed
by an Others section. -/
theorem buildChangelogBody_spec (version today : String) (commits : List (String × String)) :
    (buildChangelogBody version today commits =
      changelogHeader version today ++ "\n\n" ++
        String.intercalate "\n\n" (changelogSections (bucketCommits commits)) ++ "\n") ∧
    (changelogSections (bucketCommits commits) =
      ([("### ✨ Breaking Changes", (bucketCommits commits).breakings),
        ("### ✨ Features", (bucketCommits commits).features),
        ("### 🐛 Fixes", (bucketCommits commits).fixes),
        ("### 🧹 Others", (bucketCommits commits).others)].filter
          (fun p => !p.2.isEmpty)).map (fun p => renderSection p.1 p.2)) ∧
    (bucketCommits commits =
      ⟨(commits.filter (fun cm => decide (classifySingleCommit cm.2 = some BumpLevel.major))).map
          (fun cm => changelogLine cm.1 cm.2),
        (commits.filter (fun cm => decide (classifySingleCommit cm.2 = some BumpLevel.minor))).map
          (fun cm => changelogLine cm.1 cm.2),
        (commits.filter (fun cm => decide (classifySingleCommit cm.2 = some BumpLevel.patch))).map
          (fun cm => changelogLine cm.1 cm.2),
        (commits.filter (fun cm => decide (classifySingleCommit cm.2 = none))).map
          (fun cm => changelogLine cm.1 cm.2)⟩) ∧
    ((bucketCommits commits).breakings.length + (bucketCommits commits).features.length +
      (bucketCommits commits).fixes.length + (bucketCommits commits).others.length =
      commits.length) ∧
    buildChangelogBody "2.0.0" "2025-01-02"
        [("aaaaaaaaaa", "BREAKING CHANGE: drop api"), ("bbbbbbbbbb", "update readme")] =
      "## Release 2.0.0 — 2025-01-02\n\n### ✨ Breaking Changes\naaaaaaa BREAKING CHANGE: drop api\n\n### 🧹 Others\nbbbbbbb update readme\n" :=
  ⟨rfl, changelogSections_eq _, bucketCommits_eq commits, bucketCommits_total commits, by decide⟩

/-- Dropping whitespace passes over an all-whitespace run. -/
theorem dropWhile_space_append :
    ∀ ws r : List Char, (∀ c ∈ ws, isSpaceChar c = true) →
      (ws ++ r).dropWhile isSpaceChar = r.dropWhile isSpaceChar := by
  intro ws
  induction ws with
  | nil => intro r _; rw [List.nil_append]
  | cons c t ih =>
    intro r h
    have hc : isSpaceChar c = true := h c (by simp)
    rw [List.cons_append, List.dropWhile_cons, if_pos hc,
      ih r (fun x hx => h x (by simp [hx]))]

/-- A case-insensitive match against a lowercase pattern letter is the
letter itself or its uppercase form. -/
theorem charMatchCI_cases (p c : Char) (h : charMatchCI p c = true) :
    c = p ∨ (65 ≤ c.toNat ∧ c.toNat ≤ 90 ∧ c.toNat + 32 = p.toNat) := by
  unfold charMatchCI at h
  simp at h
  tauto

/-- A character matching a lowercase pattern letter case-insensitively is
neither whitespace nor the bullet star. -/
theorem charMatchCI_head_shape (p c : Char) (hp1 : 97 ≤ p.toNat) (hp2 : p.toNat ≤ 122)
    (h : charMatchCI p c = true) :
    isSpaceChar c = false ∧ (c == '*') = false := by
  rcases charMatchCI_cases p c h with rfl | ⟨h1, h2, _⟩
  · constructor
    · unfold isSpaceChar
      simp
      omega
    · rw [beq_eq_false_iff_ne]
      intro he
      rw [he] at hp1
      exact absurd hp1 (by decide)
  · constructor
    · unfold isSpaceChar
      simp
      omega
    · rw [beq_eq_false_iff_ne]
      intro he
      rw [he] at h1
      exact absurd h1 (by decide)

/-- The line-lead test succeeds at a position followed by whitespace, an
optional bullet star with trailing whitespace, and a pattern match. -/
theorem leadAt_of_lineStart (pats : List (List Char)) (p : List Char) (hp : p ∈ pats)
    (ws1 ws2 : List Char) (star : Bool) (c0 : Char) (rest : List Char)
    (hw1 : ∀ c ∈ ws1, isSpaceChar c = true) (hw2 : ∀ c ∈ ws2, isSpaceChar c = true)
    (h0s : isSpaceChar c0 = false) (h0b : (c0 == '*') = false)
    (hmatch : startsWithCI p (c0 :: rest) = true) :
    leadAt pats (ws1 ++ (if star then '*' :: ws2 else []) ++ c0 :: rest) = true := by
  have key : ∀ s : List Char, leadAt pats s =
      pats.any (fun q => startsWithCI q
        (if (s.dropWhile isSpaceChar).head? == some '*'
          then (s.dropWhile isSpaceChar).tail.dropWhile isSpaceChar
          else s.dropWhile isSpaceChar)) := fun _ => rfl
  have hdrop0 : (c0 :: rest).dropWhile isSpaceChar = c0 :: rest := by
    rw [List.dropWhile_cons, if_neg (by simp [h0s])]
  have hany : pats.any (fun q => startsWithCI q (c0 :: rest)) = true := by
    rw [List.any_eq_true]
    exact ⟨p, hp, hmatch⟩
  cases star with
  | false =>
    have e : ws1 ++ (if (false : Bool) then '*' :: ws2 else []) ++ c0 :: rest =
        ws1 ++ c0 :: rest := by simp
    rw [e, key, dropWhile_space_append ws1 (c0 :: rest) hw1, hdrop0]
    rw [List.head?_cons]
    rw [show (some c0 == some '*') = (c0 == '*') from rfl, h0b]
    simpa using hany
  | true =>
    have e : ws1 ++ (if (true : Bool) then '*' :: ws2 else []) ++ c0 :: rest =
        ws1 ++ '*' :: (ws2 ++ c0 :: rest) := by simp
    rw [e, key, dropWhile_space_append ws1 ('*' :: (ws2 ++ c0 :: rest)) hw1]
    rw [List.dropWhile_cons]
    rw [if_neg (show ¬(isSpaceChar '*' = true) from by decide)]
    rw [List.head?_cons]
    rw [show ((some '*' : Option Char) == some '*') = true from rfl]
    rw [if_pos rfl]
    rw [List.tail_cons, dropWhile_space_append ws2 (c0 :: rest) hw2, hdrop0]
    exact hany

/-- The line scan finds a matching position after any earlier text that
ends with a newline. -/
theorem leadScan_append (pats : List (List Char)) (rest : List Char)
    (h : leadAt pats rest = true) :
    ∀ pre2 : List Char, leadScan pats (pre2 ++ '\n' :: rest) = true := by
  intro pre2
  induction pre2 with
  | nil =>
    rw [List.nil_append, leadScan]
    simp [h]
  | cons c t ih =>
    rw [List.cons_append, leadScan]
    simp [ih]

/-- A normalized body containing a line that starts (at the body's start
or after a newline) with whitespace, an optional bullet, and a matching
keyword passes the line-lead test. -/
theorem hasLineLead_of_decomp (pats : List (List Char)) (p : List Char) (hp : p ∈ pats)
    (pre ws1 ws2 : List Char) (star : Bool) (c0 : Char) (rest : List Char)
    (hpre : pre = [] ∨ ∃ pre2, pre = pre2 ++ ['\n'])
    (hw1 : ∀ c ∈ ws1, isSpaceChar c = true) (hw2 : ∀ c ∈ ws2, isSpaceChar c = true)
    (h0s : isSpaceChar c0 = false) (h0b : (c0 == '*') = false)
    (hmatch : startsWithCI p (c0 :: rest) = true) :
    hasLineLead pats
      (pre ++ (ws1 ++ (if star then '*' :: ws2 else []) ++ c0 :: rest)) = true := by
  have hA := leadAt_of_lineStart pats p hp ws1 ws2 star c0 rest hw1 hw2 h0s h0b hmatch
  rcases hpre with rfl | ⟨pre2, rfl⟩
  · rw [List.nil_append]
    unfold hasLineLead
    rw [hA]
    rfl
  · have e : (pre2 ++ ['\n']) ++ (ws1 ++ (if star then '*' :: ws2 else []) ++ c0 :: rest) =
        pre2 ++ '\n' :: (ws1 ++ (if star then '*' :: ws2 else []) ++ c0 :: rest) := by
      simp
    rw [e]
    unfold hasLineLead
    rw [leadScan_append pats _ hA pre2]
    simp

/-- Claim C10: the conventional-commit prefixes need neither a colon nor
a word boundary after the keyword letters. For every message without a
breaking marker whose normalized body has a line (at the start or after
a newline) beginning, after any whitespace and an optional star bullet
with its own whitespace, with the letters feat in any case and any
continuation, the classification is minor; one beginning with fix or
perf under the same shape is patch when no feat line is present; in
particular a line starting feature is minor and ones starting fixed or
a bulleted perfect are patch. -/
theorem classifySingleCommit_keywordStart :
    (∀ (msg pre ws1 ws2 tail : List Char) (c1 c2 c3 c4 : Char) (star : Bool),
      normalizeMessage msg =
        pre ++ (ws1 ++ (if star then '*' :: ws2 else []) ++ c1 :: c2 :: c3 :: c4 :: tail) →
      (pre = [] ∨ ∃ pre2, pre = pre2 ++ ['\n']) →
      (∀ c ∈ ws1, isSpaceChar c = true) → (∀ c ∈ ws2, isSpaceChar c = true) →
      charMatchCI 'f' c1 = true → charMatchCI 'e' c2 = true →
      charMatchCI 'a' c3 = true → charMatchCI 't' c4 = true →
      breakingTest (normalizeMessage msg) = false →
      classifyCore msg = some .minor) ∧
    (∀ (msg pre ws1 ws2 tail : List Char) (c1 c2 c3 : Char) (star : Bool),
      normalizeMessage msg =
        pre ++ (ws1 ++ (if star then '*' :: ws2 else []) ++ c1 :: c2 :: c3 :: tail) →
      (pre = [] ∨ ∃ pre2, pre = pre2 ++ ['\n']) →
      (∀ c ∈ ws1, isSpaceChar c = true) → (∀ c ∈ ws2, isSpaceChar c = true) →
      charMatchCI 'f' c1 = true → charMatchCI 'i' c2 = true → charMatchCI 'x' c3 = true →
      breakingTest (normalizeMessage msg) = false →
      hasLineLead ["feat".data] (normalizeMessage msg) = false →
      classifyCore msg = some .patch) ∧
    (∀ (msg pre ws1 ws2 tail : List Char) (c1 c2 c3 c4 : Char) (star : Bool),
      normalizeMessage msg =
        pre ++ (ws1 ++ (if star then '*' :: ws2 else []) ++ c1 :: c2 :: c3 :: c4 :: tail) →
      (pre = [] ∨ ∃ pre2, pre = pre2 ++ ['\n']) →
      (∀ c ∈ ws1, isSpaceChar c = true) → (∀ c ∈ ws2, isSpaceChar c = true) →
      charMatchCI 'p' c1 = true → charMatchCI 'e' c2 = true →
      charMatchCI 'r' c3 = true → charMatchCI 'f' c4 = true →
      breakingTest (normalizeMessage msg) = false →
      hasLineLead ["feat".data] (normalizeMessage msg) = false →
      classifyCore msg = some .patch) ∧
    classifySingleCommit "feature add x" = some .minor ∧
    classifySingleCommit "fixed bug" = some .patch ∧
    classifySingleCommit "* perfect the docs" = some .patch := by
  refine ⟨?_, ?_, ?_, by decide, by decide, by decide⟩
  · intro msg pre ws1 ws2 tail c1 c2 c3 c4 star hdec hpre hw1 hw2 h1 h2 h3 h4 hb
    have hkw : startsWithCI "feat".data (c1 :: c2 :: c3 :: c4 :: tail) = true := by
      show (charMatchCI 'f' c1 && (charMatchCI 'e' c2 && (charMatchCI 'a' c3 &&
        (charMatchCI 't' c4 && startsWithCI [] tail)))) = true
      rw [h1, h2, h3, h4]
      rfl
    have hhead := charMatchCI_head_shape 'f' c1 (by decide) (by decide) h1
    have hlead := hasLineLead_of_decomp ["feat".data] "feat".data (by simp)
      pre ws1 ws2 star c1 (c2 :: c3 :: c4 :: tail) hpre hw1 hw2 hhead.1 hhead.2 hkw
    rw [← hdec] at hlead
    simp only [classifyCore, hb, hlead]
    simp
  · intro msg pre ws1 ws2 tail c1 c2 c3 star hdec hpre hw1 hw2 h1 h2 h3 hb hf
    have hkw : startsWithCI "fix".data (c1 :: c2 :: c3 :: tail) = true := by
      show (charMatchCI 'f' c1 && (charMatchCI 'i' c2 &&
        (charMatchCI 'x' c3 && startsWithCI [] tail))) = true
      rw [h1, h2, h3]
      rfl
    have hhead := charMatchCI_head_shape 'f' c1 (by decide) (by decide) h1
    have hlead := hasLineLead_of_decomp ["fix".data, "perf".data] "fix".data (by simp)
      pre ws1 ws2 star c1 (c2 :: c3 :: tail) hpre hw1 hw2 hhead.1 hhead.2 hkw
    rw [← hdec] at hlead
    simp only [classifyCore, hb, hf, hlead]
    simp
  · intro msg pre ws1 ws2 tail c1 c2 c3 c4 star hdec hpre hw1 hw2 h1 h2 h3 h4 hb hf
    have hkw : startsWithCI "perf".data (c1 :: c2 :: c3 :: c4 :: tail) = true := by
      show (charMatchCI 'p' c1 && (charMatchCI 'e' c2 && (charMatchCI 'r' c3 &&
        (charMatchCI 'f' c4 && startsWithCI [] tail)))) = true
      rw [h1, h2, h3, h4]
      rfl
    have hhead := charMatchCI_head_shape 'p' c1 (by decide) (by decide) h1
    have hlead := hasLineLead_of_decomp ["fix".data, "perf".data] "perf".data (by simp)
      pre ws1 ws2 star c1 (c2 :: c3 :: c4 :: tail) hpre hw1 hw2 hhead.1 hhead.2 hkw
    rw [← hdec] at hlead
    simp only [classifyCore, hb, hf, hlead]
    simp

/-- Witness for claim C10: the general parts applied to concrete
messages exercising a later line, leading whitespace, a bullet, and
uppercase keyword letters — a bulleted uppercase Feature line after
other text is minor, a message starting Fixed is patch, and a tabbed
uppercase PERF line after other text is patch. -/
theorem classifySingleCommit_keywordStart_witness :
    classifyCore "Misc\n  * Feature work".data = some .minor ∧
    classifyCore "Fixed bug".data = some .patch ∧
    classifyCore "note\n\tPERF tune loop".data = some .patch :=
  ⟨classifySingleCommit_keywordStart.1 "Misc\n  * Feature work".data
      "Misc\n".data [' ', ' '] [' '] "ure work".data 'F' 'e' 'a' 't' true
      (by decide) (Or.inr ⟨"Misc".data, by decide⟩) (by decide) (by decide)
      (by decide) (by decide) (by decide) (by decide) (by decide),
   classifySingleCommit_keywordStart.2.1 "Fixed bug".data
      [] [] [] "ed bug".data 'F' 'i' 'x' false
      (by decide) (Or.inl rfl) (by decide) (by decide)
      (by decide) (by decide) (by decide) (by decide) (by decide),
   classifySingleCommit_keywordStart.2.2.1 "note\n\tPERF tune loop".data
      "note\n".data ['\t'] [] " tune loop".data 'P' 'E' 'R' 'F' false
      (by decide) (Or.inr ⟨"note".data, by decide⟩) (by decide) (by decide)
      (by decide) (by decide) (by decide) (by decide) (by decide) (by decide)⟩

end CherrypickInteractive
